import Mathlib

/-!
Verification of the convolution demo script (src/convolution_demo.py).

The script builds a fixed synthetic spike signal, three normalized kernels
(boxcar, Gaussian, exponential), computes the same-mode convolution once via
numpy, and animates a per-frame callback that positions a flipped copy of the
kernel over the signal and reveals the convolution prefix.

Arrays are embedded as lists of real numbers; numpy operations used by the
script (zero initialisation, fancy-index assignment, flip, convolve) are
embedded from their documented semantics.  Frame indices and array indices are
natural numbers; the Python expressions max(0, pos - kernel_size // 2) and
max(0, kernel_size // 2 - pos) are written with the same max-clamp, noting
that for the non-negative ints involved, clamped integer subtraction and
truncated natural subtraction agree.
-/

namespace ConvolutionDemo

/-! ### create_demo_data: the signal -/

/-- Indices of the three single spikes (single_spikes = [15, 35, 75]). -/
def single_spikes : List ℕ := [15, 35, 75]

/-- Indices of the first burst (burst1 = [48, 50, 52]). -/
def burst1 : List ℕ := [48, 50, 52]

/-- Indices of the second burst (burst2 = [85, 87, 88, 90]). -/
def burst2 : List ℕ := [85, 87, 88, 90]

/-- numpy fancy-index assignment a[idx] = v, one index at a time. -/
def setIndices (xs : List ℝ) (idx : List ℕ) (v : ℝ) : List ℝ :=
  idx.foldl (fun a i => a.set i v) xs

/-- signal = np.zeros(100); signal[single_spikes] = 1.0;
    signal[burst1] = 1.0; signal[burst2] = 1.0 -/
def signal : List ℝ :=
  setIndices (setIndices (setIndices (List.replicate 100 0) single_spikes 1.0)
    burst1 1.0) burst2 1.0

/-! ### create_demo_data: the kernels -/

/-- kernel_size = 15 -/
def demo_kernel_size : ℕ := 15

/-- boxcar_size = 9 -/
def boxcar_size : ℕ := 9

/-- Normalization by the sum: k / k.sum() (numpy elementwise division). -/
noncomputable def normalize (xs : List ℝ) : List ℝ := xs.map (fun a => a / xs.sum)

/-- boxcar = np.zeros(15); boxcar[:9] = 1.0; boxcar = boxcar / boxcar.sum() -/
noncomputable def boxcar : List ℝ :=
  normalize ((List.range demo_kernel_size).map
    (fun i => if i < boxcar_size then (1.0 : ℝ) else 0))

/-- kernel_x = np.linspace(-2, 2, 15): entry i is -2 + 4 * i / 14
    (linspace step = (2 - (-2)) / (15 - 1) = 4 / 14). -/
noncomputable def kernel_x : List ℝ :=
  (List.range demo_kernel_size).map (fun (i : ℕ) => -2 + 4 * (i : ℝ) / 14)

/-- gaussian = np.exp(-(kernel_x ** 2)); gaussian = gaussian / gaussian.sum() -/
noncomputable def gaussian : List ℝ :=
  normalize (kernel_x.map (fun x => Real.exp (-(x ^ 2))))

/-- exponential = np.exp(-np.arange(15) / 3.0); then normalized by its sum. -/
noncomputable def exponential : List ℝ :=
  normalize ((List.range demo_kernel_size).map
    (fun (i : ℕ) => Real.exp (-((i : ℝ) / 3.0))))

/-! ### np.convolve (embedded from the numpy documentation) -/

/-- Array access with numpy's implicit zero extension used in the convolution
    sum: v[i] when 0 ≤ i < len(v), otherwise 0. -/
noncomputable def atD (xs : List ℝ) (i : ℤ) : ℝ :=
  if 0 ≤ i ∧ i < (xs.length : ℤ) then xs.getD i.toNat 0 else 0

/-- Full discrete convolution (numpy docs): output length M + N - 1, and
    out[n] = sum over m of a[m] * v[n - m]. -/
noncomputable def convolve_full (a v : List ℝ) : List ℝ :=
  (List.range (a.length + v.length - 1)).map (fun (n : ℕ) =>
    ((List.range a.length).map
      (fun (m : ℕ) => a.getD m 0 * atD v ((n : ℤ) - (m : ℤ)))).sum)

/-- numpy mode="same": the centered max(M, N) slice of the full convolution,
    starting at offset (min(M, N) - 1) / 2. -/
noncomputable def convolve_same (a v : List ℝ) : List ℝ :=
  ((convolve_full a v).drop ((min a.length v.length - 1) / 2)).take
    (max a.length v.length)

/-- convolution = np.convolve(signal, kernel, mode="same") -/
noncomputable def convolution (kernel : List ℝ) : List ℝ := convolve_same signal kernel

/-! ### animate: per-frame window and positioned kernel
    (in convolution_animation, kernel_size = len(kernel) and the signal is the
    length-100 demo signal). -/

/-- window_start = max(0, pos - kernel_size // 2) -/
def window_start (k : List ℝ) (pos : ℕ) : ℕ := max 0 (pos - k.length / 2)

/-- Right edge of the sliding-window highlight: the Rectangle is created with
    width kernel_size and only its x coordinate is updated each frame, so its
    right edge is always window_start + kernel_size. -/
def window_end (k : List ℝ) (pos : ℕ) : ℕ := window_start k pos + k.length

/-- kernel_start = max(0, pos - kernel_size // 2) -/
def kernel_start (k : List ℝ) (pos : ℕ) : ℕ := max 0 (pos - k.length / 2)

/-- kernel_end = min(len(signal), pos + kernel_size // 2 + 1) -/
def kernel_end (k : List ℝ) (pos : ℕ) : ℕ :=
  min signal.length (pos + k.length / 2 + 1)

/-- k_start = max(0, kernel_size // 2 - pos) -/
def k_start (k : List ℝ) (pos : ℕ) : ℕ := max 0 (k.length / 2 - pos)

/-- k_end = k_start + (kernel_end - kernel_start) -/
def k_end (k : List ℝ) (pos : ℕ) : ℕ :=
  k_start k pos + (kernel_end k pos - kernel_start k pos)

/-- positioned_kernel = np.zeros_like(signal), then
    positioned_kernel[kernel_start:kernel_end] = np.flip(kernel)[k_start:k_end].
    (The guard if k_end > k_start only skips an empty slice assignment and
    does not change the resulting array.) -/
noncomputable def positioned_kernel (k : List ℝ) (pos : ℕ) : List ℝ :=
  (List.range signal.length).map (fun j =>
    if kernel_start k pos ≤ j ∧ j < kernel_end k pos then
      k.reverse.getD (k_start k pos + (j - kernel_start k pos)) 0
    else 0)

/-! ### Command-line interface (__main__ block) -/

/-- choices=["boxcar", "gaussian", "exponential"] of the required --kernel
    option. -/
def kernel_choices : List String := ["boxcar", "gaussian", "exponential"]

/-- Outcome of running the script: either argparse terminated the process with
    a non-zero status, or the animation window was displayed for a kernel. -/
inductive RunOutcome
  | exited (code : ℕ)
  | displayed (kernel : List ℝ)

/-- Embedded from argparse's documented behavior: a required option declared
    with choices accepts exactly those literal values; any other value makes
    the parser print usage and exit with status 2, before main continues. -/
def parse_kernel (v : String) : Except ℕ String :=
  if v ∈ kernel_choices then Except.ok v else Except.error 2

/-- The kernels dict composed with the kernel_map name translation: the CLI
    value selects the corresponding kernel vector. -/
noncomputable def kernels_map (name : String) : List ℝ :=
  if name = "boxcar" then boxcar
  else if name = "gaussian" then gaussian
  else exponential

/-- The __main__ block: parse the CLI value; on parser failure the process has
    exited (no numeric work, no display); otherwise the animation is
    displayed for the selected kernel. -/
noncomputable def main_run (v : String) : RunOutcome :=
  match parse_kernel v with
  | Except.error c => RunOutcome.exited c
  | Except.ok name => RunOutcome.displayed (kernels_map name)

/-! ### Basic length facts -/

lemma length_setIndices (idx : List ℕ) (xs : List ℝ) (v : ℝ) :
    (setIndices xs idx v).length = xs.length := by
  induction idx generalizing xs with
  | nil => rfl
  | cons i idx ih => simp [setIndices, List.foldl_cons, ih, setIndices] at *
                     simpa [setIndices] using ih (xs.set i v)

lemma signal_length : signal.length = 100 := by
  simp [signal, length_setIndices]

lemma normalize_length (xs : List ℝ) : (normalize xs).length = xs.length := by
  simp [normalize]

lemma boxcar_length : boxcar.length = 15 := by
  simp [boxcar, normalize_length, demo_kernel_size]

lemma gaussian_length : gaussian.length = 15 := by
  rw [gaussian, normalize_length, List.length_map, kernel_x, List.length_map,
    List.length_range, demo_kernel_size]

lemma exponential_length : exponential.length = 15 := by
  rw [exponential, normalize_length, List.length_map, List.length_range,
    demo_kernel_size]

/-! ### Entry-level facts about the arrays -/

lemma getD_range_map (f : ℕ → ℝ) (n j : ℕ) (h : j < n) :
    ((List.range n).map f).getD j 0 = f j := by
  rw [List.getD_eq_getElem?_getD, List.getElem?_map, List.getElem?_range h]
  rfl

lemma getD_replicate_zero (n j : ℕ) : (List.replicate n (0 : ℝ)).getD j 0 = 0 := by
  rw [List.getD_eq_getElem?_getD, List.getElem?_replicate]
  split <;> rfl

lemma getD_set (xs : List ℝ) (i j : ℕ) (v : ℝ) :
    (xs.set i v).getD j 0 =
      if i = j ∧ i < xs.length then v else xs.getD j 0 := by
  rw [List.getD_eq_getElem?_getD, List.getElem?_set, List.getD_eq_getElem?_getD]
  by_cases hij : i = j
  · subst hij
    by_cases hl : i < xs.length
    · simp [hl]
    · have hnone : xs[i]? = none := List.getElem?_eq_none (le_of_not_lt hl)
      simp [hl, hnone]
  · have hnot : ¬(i = j ∧ i < xs.length) := fun h => hij h.1
    simp [hij, hnot]

lemma getD_setIndices (idx : List ℕ) (xs : List ℝ) (v : ℝ) (j : ℕ) :
    (setIndices xs idx v).getD j 0 =
      if j ∈ idx ∧ j < xs.length then v else xs.getD j 0 := by
  induction idx generalizing xs with
  | nil => simp [setIndices]
  | cons i idx ih =>
      have hstep : setIndices xs (i :: idx) v = setIndices (xs.set i v) idx v := by
        simp [setIndices]
      rw [hstep, ih, getD_set, List.length_set]
      by_cases hj : j ∈ idx
      · by_cases hl : j < xs.length
        · simp [hj, hl]
        · have hnot : ¬(i = j ∧ i < xs.length) := fun h => hl (h.1 ▸ h.2)
          simp [hj, hl, hnot]
      · by_cases hij : i = j
        · by_cases hl : j < xs.length <;> simp [hj, hij, hl]
        · have : ¬ j = i := fun h => hij h.symm
          simp [hj, hij, this]

/-- The nonzero indices of the generated signal. -/
lemma signal_getD (j : ℕ) :
    signal.getD j 0 =
      if j ∈ single_spikes ∨ j ∈ burst1 ∨ j ∈ burst2 then 1 else 0 := by
  have h1 : ∀ m ∈ single_spikes, m < 100 := by decide
  have h2 : ∀ m ∈ burst1, m < 100 := by decide
  have h3 : ∀ m ∈ burst2, m < 100 := by decide
  rw [signal, getD_setIndices, getD_setIndices, getD_setIndices]
  simp only [length_setIndices, List.length_replicate, getD_replicate_zero]
  by_cases hb2 : j ∈ burst2
  · simp [hb2, h3 j hb2]
    norm_num
  · by_cases hb1 : j ∈ burst1
    · simp [hb2, hb1, h2 j hb1]
      norm_num
    · by_cases hs : j ∈ single_spikes
      · simp [hb2, hb1, hs, h1 j hs]
        norm_num
      · simp [hb2, hb1, hs]

lemma getD_out_of_bounds (xs : List ℝ) (j : ℕ) (h : xs.length ≤ j) :
    xs.getD j 0 = 0 := by
  rw [List.getD_eq_getElem?_getD, List.getElem?_eq_none h]
  rfl

lemma getD_map_of_lt (f : ℝ → ℝ) (xs : List ℝ) (j : ℕ) (h : j < xs.length) :
    (xs.map f).getD j 0 = f (xs.getD j 0) := by
  rw [List.getD_eq_getElem?_getD, List.getElem?_map, List.getElem?_eq_getElem h,
    List.getD_eq_getElem?_getD, List.getElem?_eq_getElem h]
  rfl

/-! ### Normalization facts -/

lemma list_sum_map_div (xs : List ℝ) (s : ℝ) :
    (xs.map (fun a => a / s)).sum = xs.sum / s := by
  induction xs with
  | nil => simp
  | cons a l ih => simp [ih, add_div]

lemma normalize_sum (xs : List ℝ) (h : xs.sum ≠ 0) : (normalize xs).sum = 1 := by
  rw [normalize, list_sum_map_div, div_self h]

lemma normalize_getD (xs : List ℝ) (j : ℕ) (h : j < xs.length) :
    (normalize xs).getD j 0 = xs.getD j 0 / xs.sum := by
  rw [normalize]
  exact getD_map_of_lt _ xs j h

/-! ### The three kernels: entries, positivity, sums -/

lemma boxcar_raw_sum :
    ((List.range demo_kernel_size).map
      (fun i => if i < boxcar_size then (1.0 : ℝ) else 0)).sum = 9 := by
  rw [demo_kernel_size]
  norm_num [List.range_succ, boxcar_size]

lemma boxcar_getD (i : ℕ) :
    boxcar.getD i 0 = if i < 9 then (1 / 9 : ℝ) else 0 := by
  by_cases h : i < 15
  · rw [boxcar, normalize_getD _ i (by
      simpa [demo_kernel_size] using h), boxcar_raw_sum,
      getD_range_map _ _ _ (by simpa [demo_kernel_size] using h)]
    by_cases h9 : i < 9
    · simp [boxcar_size, h9]
      norm_num
    · simp [boxcar_size, h9]
  · rw [getD_out_of_bounds _ _ (by rw [boxcar_length]; omega)]
    have : ¬ i < 9 := by omega
    simp [this]

lemma boxcar_sum : boxcar.sum = 1 := by
  rw [boxcar, normalize_sum]
  rw [boxcar_raw_sum]
  norm_num

lemma kernel_x_getD (i : ℕ) (h : i < 15) :
    kernel_x.getD i 0 = -2 + 4 * (i : ℝ) / 14 := by
  rw [kernel_x, demo_kernel_size]
  exact getD_range_map _ _ _ h

lemma kernel_x_length : kernel_x.length = 15 := by
  rw [kernel_x, List.length_map, List.length_range, demo_kernel_size]

lemma gaussian_raw_sum_pos :
    0 < (kernel_x.map (fun x => Real.exp (-(x ^ 2)))).sum := by
  apply List.sum_pos
  · intro y hy
    rcases List.mem_map.mp hy with ⟨x, hx, rfl⟩
    exact Real.exp_pos _
  · have : (kernel_x.map (fun x => Real.exp (-(x ^ 2)))).length = 15 := by
      rw [List.length_map, kernel_x_length]
    intro hnil
    rw [hnil] at this
    simp at this

lemma gaussian_getD (i : ℕ) (h : i < 15) :
    gaussian.getD i 0 =
      Real.exp (-((-2 + 4 * (i : ℝ) / 14) ^ 2)) /
        (kernel_x.map (fun x => Real.exp (-(x ^ 2)))).sum := by
  rw [gaussian, normalize_getD _ i (by rw [List.length_map, kernel_x_length]; omega),
    getD_map_of_lt _ _ _ (by rw [kernel_x_length]; omega), kernel_x_getD i h]

lemma gaussian_getD_pos (i : ℕ) (h : i < 15) : 0 < gaussian.getD i 0 := by
  rw [gaussian_getD i h]
  exact div_pos (Real.exp_pos _) gaussian_raw_sum_pos

lemma gaussian_sum : gaussian.sum = 1 := by
  rw [gaussian, normalize_sum _ (ne_of_gt gaussian_raw_sum_pos)]

lemma exponential_raw_sum_pos :
    0 < ((List.range demo_kernel_size).map
      (fun (i : ℕ) => Real.exp (-((i : ℝ) / 3.0)))).sum := by
  apply List.sum_pos
  · intro y hy
    rcases List.mem_map.mp hy with ⟨x, hx, rfl⟩
    exact Real.exp_pos _
  · have : ((List.range demo_kernel_size).map
        (fun (i : ℕ) => Real.exp (-((i : ℝ) / 3.0)))).length = 15 := by
      rw [List.length_map, List.length_range, demo_kernel_size]
    intro hnil
    rw [hnil] at this
    simp at this

lemma exponential_getD (i : ℕ) (h : i < 15) :
    exponential.getD i 0 =
      Real.exp (-((i : ℝ) / 3.0)) /
        ((List.range demo_kernel_size).map
          (fun (i : ℕ) => Real.exp (-((i : ℝ) / 3.0)))).sum := by
  rw [exponential,
    normalize_getD _ i (by rw [List.length_map, List.length_range, demo_kernel_size]; omega),
    getD_range_map _ _ _ (by rw [demo_kernel_size]; omega)]

lemma exponential_getD_pos (i : ℕ) (h : i < 15) : 0 < exponential.getD i 0 := by
  rw [exponential_getD i h]
  exact div_pos (Real.exp_pos _) exponential_raw_sum_pos

lemma exponential_sum : exponential.sum = 1 := by
  rw [exponential, normalize_sum _ (ne_of_gt exponential_raw_sum_pos)]

/-! ### Sums of list entries -/

lemma list_sum_eq_sum_range_getD (l : List ℝ) :
    l.sum = ∑ i ∈ Finset.range l.length, l.getD i 0 := by
  induction l with
  | nil => simp
  | cons a t ih =>
      rw [List.sum_cons, List.length_cons,
        Finset.sum_range_succ' (fun i => (a :: t).getD i 0)]
      simp only [List.getD_cons_succ, List.getD_cons_zero]
      rw [← ih, add_comm]

lemma sum_map_range (f : ℕ → ℝ) (n : ℕ) :
    ((List.range n).map f).sum = ∑ i ∈ Finset.range n, f i := by
  induction n with
  | zero => simp
  | succ n ih =>
      rw [List.range_succ]
      simp [ih, Finset.sum_range_succ]

lemma getD_reverse_15 (k : List ℝ) (h15 : k.length = 15) (u : ℕ) (h : u < 15) :
    k.reverse.getD u 0 = k.getD (14 - u) 0 := by
  have hu : u < k.reverse.length := by rw [List.length_reverse, h15]; exact h
  rw [List.getD_eq_getElem _ _ hu, List.getElem_reverse,
    List.getD_eq_getElem _ _ (by omega : 14 - u < k.length)]
  congr 1
  omega

lemma sum_range15_reflect (k : List ℝ) (h15 : k.length = 15) :
    ∑ u ∈ Finset.range 15, k.getD (14 - u) 0 = k.sum := by
  have hr := Finset.sum_range_reflect (fun u => k.getD u 0) 15
  have h14 : ∀ u, (15 : ℕ) - 1 - u = 14 - u := by omega
  simp only [h14] at hr
  rw [hr, list_sum_eq_sum_range_getD k, h15]

/-! ### The per-frame index bounds of animate -/

lemma animate_index_bounds (k : List ℝ) (h15 : k.length = 15) (pos : ℕ)
    (hpos : pos < 100) :
    kernel_start k pos ≤ kernel_end k pos ∧ kernel_end k pos ≤ 100 ∧
      k_start k pos ≤ k_end k pos ∧ k_end k pos ≤ 15 := by
  simp only [kernel_start, kernel_end, k_start, k_end, h15, signal_length]
  norm_num
  omega

/-- Entry j of positioned_kernel: inside the clamped window it holds the
    flipped kernel centered at pos, outside it is zero. -/
lemma positioned_kernel_getD (k : List ℝ) (h15 : k.length = 15) (pos : ℕ)
    (hpos : pos < 100) (j : ℕ) (hj : j < 100) :
    (positioned_kernel k pos).getD j 0 =
      if kernel_start k pos ≤ j ∧ j < kernel_end k pos then
        k.getD (pos + 7 - j) 0
      else 0 := by
  rw [positioned_kernel, signal_length,
    getD_range_map _ _ _ (by omega : j < 100)]
  by_cases hw : kernel_start k pos ≤ j ∧ j < kernel_end k pos
  · rw [if_pos hw, if_pos hw]
    have hb := animate_index_bounds k h15 pos hpos
    have hidx : k_start k pos + (j - kernel_start k pos) < 15 := by
      revert hw hb
      simp only [kernel_start, kernel_end, k_start, k_end, h15, signal_length]
      norm_num
      omega
    rw [getD_reverse_15 k h15 _ hidx]
    congr 1
    revert hw
    simp only [kernel_start, kernel_end, k_start, k_end, h15, signal_length]
    norm_num
    omega
  · rw [if_neg hw, if_neg hw]

lemma positioned_kernel_length (k : List ℝ) (pos : ℕ) :
    (positioned_kernel k pos).length = 100 := by
  rw [positioned_kernel, List.length_map, List.length_range, signal_length]

/-- The total mass of the positioned kernel is the sum of the flipped kernel
    over the slice [k_start, k_end). -/
lemma positioned_kernel_sum (k : List ℝ) (h15 : k.length = 15) (pos : ℕ)
    (hpos : pos < 100) :
    (positioned_kernel k pos).sum =
      ∑ u ∈ Finset.Ico (k_start k pos) (k_end k pos), k.getD (14 - u) 0 := by
  have hb := animate_index_bounds k h15 pos hpos
  rw [positioned_kernel, signal_length, sum_map_range]
  rw [← Finset.sum_filter]
  have hfil : Finset.filter
      (fun j => kernel_start k pos ≤ j ∧ j < kernel_end k pos)
      (Finset.range 100) = Finset.Ico (kernel_start k pos) (kernel_end k pos) := by
    ext j
    simp only [Finset.mem_filter, Finset.mem_range, Finset.mem_Ico]
    constructor
    · rintro ⟨-, h1, h2⟩
      exact ⟨h1, h2⟩
    · rintro ⟨h1, h2⟩
      exact ⟨by omega, h1, h2⟩
  rw [hfil, Finset.sum_Ico_eq_sum_range, Finset.sum_Ico_eq_sum_range]
  have hlen : kernel_end k pos - kernel_start k pos =
      k_end k pos - k_start k pos := by
    simp only [k_end]
    omega
  rw [hlen]
  apply Finset.sum_congr rfl
  intro t ht
  simp only [Finset.mem_range] at ht
  have h1 : kernel_start k pos + t - kernel_start k pos = t := by omega
  rw [h1]
  have hidx : k_start k pos + t < 15 := by omega
  rw [getD_reverse_15 k h15 _ hidx]

/-! ### Convolution length -/

lemma convolve_full_length (a v : List ℝ) :
    (convolve_full a v).length = a.length + v.length - 1 := by
  rw [convolve_full, List.length_map, List.length_range]

lemma convolution_length (k : List ℝ) (h15 : k.length = 15) :
    (convolution k).length = 100 := by
  rw [convolution, convolve_same, List.length_take, List.length_drop,
    convolve_full_length, signal_length, h15]
  norm_num

/-! ### Kernel non-negativity -/

lemma normalize_nonneg (xs : List ℝ) (h : ∀ a ∈ xs, 0 ≤ a) (hs : 0 ≤ xs.sum) :
    ∀ x ∈ normalize xs, 0 ≤ x := by
  intro x hx
  rcases List.mem_map.mp hx with ⟨a, ha, rfl⟩
  exact div_nonneg (h a ha) hs

lemma boxcar_nonneg : ∀ x ∈ boxcar, 0 ≤ x := by
  apply normalize_nonneg
  · intro a ha
    rcases List.mem_map.mp ha with ⟨i, hi, rfl⟩
    split <;> norm_num
  · rw [boxcar_raw_sum]
    norm_num

lemma gaussian_nonneg : ∀ x ∈ gaussian, 0 ≤ x := by
  apply normalize_nonneg
  · intro a ha
    rcases List.mem_map.mp ha with ⟨x, hx, rfl⟩
    exact le_of_lt (Real.exp_pos _)
  · exact le_of_lt gaussian_raw_sum_pos

lemma exponential_nonneg : ∀ x ∈ exponential, 0 ≤ x := by
  apply normalize_nonneg
  · intro a ha
    rcases List.mem_map.mp ha with ⟨i, hi, rfl⟩
    exact le_of_lt (Real.exp_pos _)
  · exact le_of_lt exponential_raw_sum_pos

/-! ### Claim theorems -/

/-- Claim C1: for every frame pos in [0, 100), the sliding-window highlight
starts at max(0, pos - 7) — clamped only at the signal's left edge — and keeps
its full width 15, with no clamp at the right edge; in particular the window
start at frame 0 is 0, and the right edge at frame 99 is 107, exceeding the
signal length 100. -/
theorem window_clamped_left_only (k : List ℝ) (h15 : k.length = 15) (pos : ℕ)
    (_hpos : pos < 100) :
    window_start k pos = max 0 (pos - 7) ∧
    window_end k pos = window_start k pos + 15 ∧
    (7 ≤ pos → window_start k pos = pos - 7) ∧
    window_start k 0 = 0 ∧
    window_end k 99 = 107 ∧ 100 < window_end k 99 := by
  simp only [window_start, window_end, h15]
  norm_num

theorem window_clamped_left_only_witness :
    window_start boxcar 99 = 92 ∧ 100 < window_end boxcar 99 := by
  have h := window_clamped_left_only boxcar boxcar_length 99 (by norm_num)
  exact ⟨h.1.trans (by norm_num), h.2.2.2.2.2⟩

/-- Claim C2: for every frame pos in [0, 100), the positioned kernel has the
same length as the Signal (100), holds the left-right-reversed copy of the
kernel inside the clamped window [kernel_start, kernel_end) — entry j is
flip(kernel)[j + 7 - pos], equivalently kernel[pos + 7 - j] — and is zero at
every index outside that window. -/
theorem positioned_kernel_flipped_copy (k : List ℝ) (h15 : k.length = 15)
    (pos : ℕ) (hpos : pos < 100) :
    (positioned_kernel k pos).length = signal.length ∧
    (positioned_kernel k pos).length = 100 ∧
    (∀ j, kernel_start k pos ≤ j → j < kernel_end k pos →
      (positioned_kernel k pos).getD j 0 = k.reverse.getD (j + 7 - pos) 0 ∧
      (positioned_kernel k pos).getD j 0 = k.getD (pos + 7 - j) 0) ∧
    (∀ j, j < 100 → ¬(kernel_start k pos ≤ j ∧ j < kernel_end k pos) →
      (positioned_kernel k pos).getD j 0 = 0) := by
  have hb := animate_index_bounds k h15 pos hpos
  refine ⟨?_, positioned_kernel_length k pos, ?_, ?_⟩
  · rw [positioned_kernel_length k pos, signal_length]
  · intro j hj1 hj2
    have hj100 : j < 100 := by omega
    have hwin : pos ≤ j + 7 ∧ j ≤ pos + 7 := by
      revert hj1 hj2
      simp only [kernel_start, kernel_end, h15, signal_length]
      omega
    have h2 : (positioned_kernel k pos).getD j 0 = k.getD (pos + 7 - j) 0 := by
      rw [positioned_kernel_getD k h15 pos hpos j hj100, if_pos ⟨hj1, hj2⟩]
    refine ⟨?_, h2⟩
    rw [h2, getD_reverse_15 k h15 _ (by omega : j + 7 - pos < 15)]
    congr 1
    omega
  · intro j hj100 hw
    rw [positioned_kernel_getD k h15 pos hpos j hj100, if_neg hw]

theorem positioned_kernel_flipped_copy_witness :
    (positioned_kernel boxcar 0).length = 100 ∧
    (positioned_kernel boxcar 0).getD 20 0 = 0 := by
  have h := positioned_kernel_flipped_copy boxcar boxcar_length 0 (by norm_num)
  refine ⟨h.2.1, h.2.2.2 20 (by norm_num) ?_⟩
  rintro ⟨-, hlt⟩
  rw [kernel_end, boxcar_length, signal_length] at hlt
  omega

/-- Claim C3: each of the three generated kernels is a length-15 vector of
non-negative entries whose elements sum to exactly 1 (exact arithmetic). -/
theorem kernels_length_nonneg_normalized :
    (boxcar.length = 15 ∧ boxcar.Forall (fun x => 0 ≤ x) ∧ boxcar.sum = 1) ∧
    (gaussian.length = 15 ∧ gaussian.Forall (fun x => 0 ≤ x) ∧
      gaussian.sum = 1) ∧
    (exponential.length = 15 ∧ exponential.Forall (fun x => 0 ≤ x) ∧
      exponential.sum = 1) :=
  ⟨⟨boxcar_length, List.forall_iff_forall_mem.mpr boxcar_nonneg, boxcar_sum⟩,
   ⟨gaussian_length, List.forall_iff_forall_mem.mpr gaussian_nonneg,
    gaussian_sum⟩,
   ⟨exponential_length, List.forall_iff_forall_mem.mpr exponential_nonneg,
    exponential_sum⟩⟩

/-- Claim C4: the Signal has length 100, holds the value 1 exactly at the ten
indices 15, 35, 75, 48, 50, 52, 85, 87, 88, 90 (three single spikes plus
bursts of 3 and 4), is 0 at every other index, and those indices are 10
distinct positions. -/
theorem signal_ten_unit_spikes (j : ℕ) (_hj : j < 100) :
    signal.length = 100 ∧
    (j ∈ ([15, 35, 75, 48, 50, 52, 85, 87, 88, 90] : List ℕ) →
      signal.getD j 0 = 1) ∧
    (j ∉ ([15, 35, 75, 48, 50, 52, 85, 87, 88, 90] : List ℕ) →
      signal.getD j 0 = 0) ∧
    ({15, 35, 75, 48, 50, 52, 85, 87, 88, 90} : Finset ℕ).card = 10 := by
  have hiff : (j ∈ single_spikes ∨ j ∈ burst1 ∨ j ∈ burst2) ↔
      j ∈ ([15, 35, 75, 48, 50, 52, 85, 87, 88, 90] : List ℕ) := by
    simp only [single_spikes, burst1, burst2, List.mem_cons,
      List.not_mem_nil, or_false]
    tauto
  refine ⟨signal_length, ?_, ?_, by decide⟩
  · intro h
    rw [signal_getD, if_pos (hiff.mpr h)]
  · intro h
    rw [signal_getD, if_neg (fun hc => h (hiff.mp hc))]

theorem signal_ten_unit_spikes_witness :
    signal.getD 15 0 = 1 ∧ signal.getD 0 0 = 0 ∧ signal.length = 100 :=
  ⟨(signal_ten_unit_spikes 15 (by norm_num)).2.1 (by decide),
   (signal_ten_unit_spikes 0 (by norm_num)).2.2.1 (by decide),
   (signal_ten_unit_spikes 0 (by norm_num)).1⟩

/-- Claim C5: the boxcar kernel has 15 elements, its first 9 elements all
equal 1/9 (equal and nonzero), its remaining 6 elements are exactly 0, and
its elements sum to 1. -/
theorem boxcar_first_nine_uniform (i : ℕ) :
    boxcar.length = 15 ∧ boxcar.sum = 1 ∧
    (i < 9 → boxcar.getD i 0 = 1 / 9 ∧ boxcar.getD i 0 ≠ 0) ∧
    (9 ≤ i → i < 15 → boxcar.getD i 0 = 0) := by
  refine ⟨boxcar_length, boxcar_sum, ?_, ?_⟩
  · intro h
    rw [boxcar_getD, if_pos h]
    norm_num
  · intro h1 h2
    rw [boxcar_getD, if_neg (by omega)]

theorem boxcar_first_nine_uniform_witness :
    boxcar.getD 0 0 = 1 / 9 ∧ boxcar.getD 0 0 ≠ 0 ∧ boxcar.getD 9 0 = 0 :=
  ⟨((boxcar_first_nine_uniform 0).2.2.1 (by norm_num)).1,
   ((boxcar_first_nine_uniform 0).2.2.1 (by norm_num)).2,
   (boxcar_first_nine_uniform 9).2.2.2 (by norm_num) (by norm_num)⟩

/-- Claim C6: the same-mode convolution of the Signal with each of the three
kernels has length equal to the Signal length, 100. -/
theorem convolution_output_length :
    signal.length = 100 ∧
    (convolution boxcar).length = signal.length ∧
    (convolution gaussian).length = signal.length ∧
    (convolution exponential).length = signal.length := by
  refine ⟨signal_length, ?_, ?_, ?_⟩
  · rw [convolution_length boxcar boxcar_length, signal_length]
  · rw [convolution_length gaussian gaussian_length, signal_length]
  · rw [convolution_length exponential exponential_length, signal_length]

/-- Claim C7: the Gaussian kernel is symmetric: entry i equals entry 14 - i
for every i < 15. -/
theorem gaussian_kernel_symmetric (i : ℕ) (h : i < 15) :
    gaussian.getD i 0 = gaussian.getD (14 - i) 0 := by
  rw [gaussian_getD i h, gaussian_getD (14 - i) (by omega)]
  have harg : -((-2 + 4 * ((14 - i : ℕ) : ℝ) / 14) ^ 2) =
      -((-2 + 4 * (i : ℝ) / 14) ^ 2) := by
    have hc : ((14 - i : ℕ) : ℝ) = 14 - (i : ℝ) := by
      have hle : i ≤ 14 := by omega
      push_cast [hle]
      ring
    rw [hc]
    ring
  rw [harg]

theorem gaussian_kernel_symmetric_witness :
    gaussian.getD 0 0 = gaussian.getD 14 0 :=
  gaussian_kernel_symmetric 0 (by norm_num)

/-- Claim C8: the CLI accepts exactly the literal values boxcar, gaussian and
exponential; any other value is rejected by the argument parser before any
numeric computation or display, and the process exits with the non-zero
status 2. -/
theorem cli_rejects_invalid_kernel (v : String) :
    (v ∈ kernel_choices → main_run v = RunOutcome.displayed (kernels_map v)) ∧
    (v ∉ kernel_choices →
      main_run v = RunOutcome.exited 2 ∧ (2 : ℕ) ≠ 0) := by
  constructor
  · intro h
    simp [main_run, parse_kernel, h]
  · intro h
    simp [main_run, parse_kernel, h]

theorem cli_rejects_invalid_kernel_witness :
    main_run ("unknown") = RunOutcome.exited 2 ∧ (2 : ℕ) ≠ 0 :=
  (cli_rejects_invalid_kernel ("unknown")).2 (by decide)

/-- Claim C9: for every frame pos in [0, 100), all array accesses of the
animation callback are in bounds: kernel_start ≤ kernel_end ≤ 100,
k_start ≤ k_end ≤ 15 with window widths matching, and the convolution is
indexed only at pos < 100 (its length). -/
theorem animate_accesses_in_bounds (k : List ℝ) (h15 : k.length = 15) (pos : ℕ)
    (hpos : pos < 100) :
    kernel_start k pos ≤ kernel_end k pos ∧ kernel_end k pos ≤ 100 ∧
    k_start k pos ≤ k_end k pos ∧ k_end k pos ≤ 15 ∧
    k_end k pos - k_start k pos = kernel_end k pos - kernel_start k pos ∧
    pos < (convolution k).length ∧ pos + 1 ≤ (convolution k).length := by
  have hb := animate_index_bounds k h15 pos hpos
  have hc := convolution_length k h15
  refine ⟨hb.1, hb.2.1, hb.2.2.1, hb.2.2.2, ?_, by omega, by omega⟩
  simp only [k_end]
  omega

theorem animate_accesses_in_bounds_witness :
    kernel_start boxcar 99 ≤ kernel_end boxcar 99 ∧
    kernel_end boxcar 99 ≤ 100 ∧
    k_start boxcar 99 ≤ k_end boxcar 99 ∧ k_end boxcar 99 ≤ 15 ∧
    k_end boxcar 99 - k_start boxcar 99 =
      kernel_end boxcar 99 - kernel_start boxcar 99 ∧
    99 < (convolution boxcar).length ∧
    99 + 1 ≤ (convolution boxcar).length :=
  animate_accesses_in_bounds boxcar boxcar_length 99 (by norm_num)

/-! ### Mass of the positioned kernel (claim C10) -/

lemma getD_nonneg (k : List ℝ) (h : ∀ x ∈ k, 0 ≤ x) (i : ℕ) :
    0 ≤ k.getD i 0 := by
  by_cases hi : i < k.length
  · rw [List.getD_eq_getElem _ _ hi]
    exact h _ (List.getElem_mem hi)
  · rw [getD_out_of_bounds _ _ (by omega)]

/-- Sum of a slice of the flipped boxcar: each term with 6 ≤ u contributes
    1/9, the others 0. -/
lemma box_slice_sum (a b : ℕ) (hb : b ≤ 15) (_hab : a ≤ b) :
    ∑ u ∈ Finset.Ico a b, boxcar.getD (14 - u) 0 =
      ((b - max a 6 : ℕ) : ℝ) / 9 := by
  have hstep : ∀ u ∈ Finset.Ico a b, boxcar.getD (14 - u) 0 =
      if 6 ≤ u then (1 / 9 : ℝ) else 0 := by
    intro u hu
    simp only [Finset.mem_Ico] at hu
    rw [boxcar_getD]
    by_cases h6 : 6 ≤ u
    · rw [if_pos (by omega), if_pos h6]
    · rw [if_neg (by omega), if_neg h6]
  rw [Finset.sum_congr rfl hstep, ← Finset.sum_filter]
  have hfil : (Finset.Ico a b).filter (fun u => 6 ≤ u) =
      Finset.Ico (max a 6) b := by
    ext u
    simp only [Finset.mem_filter, Finset.mem_Ico]
    omega
  rw [hfil, Finset.sum_const, Nat.card_Ico, nsmul_eq_mul]
  ring

/-- Counterexample for claim C10 as stated: at frame 1 the boxcar window is
truncated on the left (k_start = 6 > 0), yet the truncated entries are the
boxcar's trailing zeros, so the positioned kernel still sums to exactly 1
although the 15-wide window does not lie fully inside the signal (1 < 7). -/
theorem positioned_kernel_mass_counterexample :
    (positioned_kernel boxcar 1).sum = 1 ∧ ¬(7 ≤ (1 : ℕ) ∧ (1 : ℕ) ≤ 92) := by
  have hsum := positioned_kernel_sum boxcar boxcar_length 1 (by norm_num)
  have hks : k_start boxcar 1 = 6 := by
    simp [k_start, boxcar_length]
  have hke : k_end boxcar 1 = 15 := by
    simp [k_end, k_start, kernel_end, kernel_start, boxcar_length,
      signal_length]
  rw [hks, hke] at hsum
  refine ⟨?_, by omega⟩
  rw [hsum, box_slice_sum 6 15 (by norm_num) (by norm_num)]
  norm_num

/-- Claim C10 (amended): for every frame pos in [0, 100) and each of the three
kernels, the positioned kernel has only non-negative entries and sums to at
most the kernel's total mass 1; the sum equals 1 for every pos with
7 ≤ pos ≤ 92 (the 15-wide window fully inside the signal); for the strictly
positive Gaussian and exponential kernels equality holds exactly then, while
for the boxcar kernel — whose last 6 entries are zero — equality holds
exactly for 1 ≤ pos ≤ 92, so near the edges the displayed kernel mass is
truncated only when nonzero entries fall outside the signal. -/
theorem positioned_kernel_mass (k : List ℝ) (pos : ℕ) (hpos : pos < 100)
    (hk : k = boxcar ∨ k = gaussian ∨ k = exponential) :
    (positioned_kernel k pos).Forall (fun x => 0 ≤ x) ∧
    (positioned_kernel k pos).sum ≤ 1 ∧
    (7 ≤ pos ∧ pos ≤ 92 → (positioned_kernel k pos).sum = 1) ∧
    (k = gaussian ∨ k = exponential →
      ((positioned_kernel k pos).sum = 1 ↔ 7 ≤ pos ∧ pos ≤ 92)) ∧
    (k = boxcar → ((positioned_kernel k pos).sum = 1 ↔ 1 ≤ pos ∧ pos ≤ 92)) := by
  have h15 : k.length = 15 := by
    rcases hk with rfl | rfl | rfl
    exacts [boxcar_length, gaussian_length, exponential_length]
  have hnn : ∀ x ∈ k, 0 ≤ x := by
    rcases hk with rfl | rfl | rfl
    exacts [boxcar_nonneg, gaussian_nonneg, exponential_nonneg]
  have hsum1 : k.sum = 1 := by
    rcases hk with rfl | rfl | rfl
    exacts [boxcar_sum, gaussian_sum, exponential_sum]
  have hgetDnn : ∀ i, 0 ≤ k.getD i 0 := getD_nonneg k hnn
  have hS := positioned_kernel_sum k h15 pos hpos
  have hb := animate_index_bounds k h15 pos hpos
  have hsub : Finset.Ico (k_start k pos) (k_end k pos) ⊆ Finset.range 15 := by
    intro u hu
    simp only [Finset.mem_Ico] at hu
    simp only [Finset.mem_range]
    omega
  have hfull : ∑ u ∈ Finset.range 15, k.getD (14 - u) 0 = 1 := by
    rw [sum_range15_reflect k h15, hsum1]
  have hle : (positioned_kernel k pos).sum ≤ 1 := by
    rw [hS, ← hfull]
    exact Finset.sum_le_sum_of_subset_of_nonneg hsub (fun i _ _ => hgetDnn _)
  have hfullwin : 7 ≤ pos ∧ pos ≤ 92 → (positioned_kernel k pos).sum = 1 := by
    intro h
    have h0 : k_start k pos = 0 := by
      simp only [k_start, h15]
      omega
    have h15e : k_end k pos = 15 := by
      simp only [k_end, k_start, kernel_end, kernel_start, h15, signal_length]
      omega
    rw [hS, h0, h15e, ← Finset.range_eq_Ico, hfull]
  have hforall : (positioned_kernel k pos).Forall (fun x => 0 ≤ x) := by
    rw [List.forall_iff_forall_mem]
    intro x hx
    rw [positioned_kernel] at hx
    rcases List.mem_map.mp hx with ⟨j, hj, rfl⟩
    split
    · exact getD_nonneg k.reverse
        (fun y hy => hnn y (List.mem_reverse.mp hy)) _
    · exact le_refl 0
  have hstrict : (∀ i, i < 15 → 0 < k.getD i 0) → ¬(7 ≤ pos ∧ pos ≤ 92) →
      (positioned_kernel k pos).sum < 1 := by
    intro hposk hnw
    rw [hS, ← hfull]
    by_cases hlt : pos < 7
    · refine Finset.sum_lt_sum_of_subset hsub (i := 0) (by simp) ?_
        (hposk 14 (by norm_num)) (fun j _ _ => hgetDnn _)
      simp only [Finset.mem_Ico, not_and, not_lt]
      intro h0
      have : k_start k pos = 0 := by omega
      revert this
      simp only [k_start, h15]
      omega
    · refine Finset.sum_lt_sum_of_subset hsub (i := 14) (by simp) ?_
        (by simpa using hposk 0 (by norm_num)) (fun j _ _ => hgetDnn _)
      simp only [Finset.mem_Ico, not_and, not_lt]
      intro h14
      simp only [k_end, k_start, kernel_end, kernel_start, h15, signal_length]
      omega
  refine ⟨hforall, hle, hfullwin, ?_, ?_⟩
  · intro hge
    have hposk : ∀ i, i < 15 → 0 < k.getD i 0 := by
      rcases hge with rfl | rfl
      exacts [fun i h => gaussian_getD_pos i h, fun i h => exponential_getD_pos i h]
    constructor
    · intro heq
      by_contra hnw
      have hlt := hstrict hposk hnw
      rw [heq] at hlt
      exact lt_irrefl 1 hlt
    · exact hfullwin
  · rintro rfl
    constructor
    · intro heq
      rw [hS, box_slice_sum _ _ hb.2.2.2 hb.2.2.1] at heq
      have hcount : (k_end boxcar pos - max (k_start boxcar pos) 6 : ℕ) = 9 := by
        have h9 : ((k_end boxcar pos - max (k_start boxcar pos) 6 : ℕ) : ℝ) = 9 := by
          field_simp at heq
          exact_mod_cast heq
        exact_mod_cast h9
      revert hcount
      simp only [k_end, k_start, kernel_end, kernel_start, boxcar_length,
        signal_length]
      omega
    · intro hp
      rw [hS, box_slice_sum _ _ hb.2.2.2 hb.2.2.1]
      have hcount : (k_end boxcar pos - max (k_start boxcar pos) 6 : ℕ) = 9 := by
        simp only [k_end, k_start, kernel_end, kernel_start, boxcar_length,
          signal_length]
        omega
      rw [hcount]
      norm_num

theorem positioned_kernel_mass_witness :
    (positioned_kernel gaussian 50).Forall (fun x => 0 ≤ x) ∧
    (positioned_kernel gaussian 50).sum ≤ 1 ∧
    (7 ≤ (50 : ℕ) ∧ (50 : ℕ) ≤ 92 → (positioned_kernel gaussian 50).sum = 1) ∧
    (gaussian = gaussian ∨ gaussian = exponential →
      ((positioned_kernel gaussian 50).sum = 1 ↔ 7 ≤ (50 : ℕ) ∧ (50 : ℕ) ≤ 92)) ∧
    (gaussian = boxcar →
      ((positioned_kernel gaussian 50).sum = 1 ↔ 1 ≤ (50 : ℕ) ∧ (50 : ℕ) ≤ 92)) :=
  positioned_kernel_mass gaussian 50 (by norm_num) (Or.inr (Or.inl rfl))

end ConvolutionDemo
